import Mathlib

/-!
Verification development for the ffhuman media command compiler.

The Rust sources are shallowly embedded: pure functions become Lean
functions, `f64` arithmetic over the dyadic/decimal constants involved is
modelled exactly over `ℚ`, machine-integer casts are made explicit, and
fallible code returns `Option`/`Except`.
-/

namespace FFHuman

/-! ## Tempo-chain construction (src/ffmpeg/recipes.rs, build_atempo_chain)

The Rust loop `while remaining > 2.0 { parts.push("atempo=2.0"); remaining /= 2.0 }`
is modelled by `atempoHalve`, returning the list of emitted stage factors
together with the final value of `remaining`.  Stages are modelled by their
numeric factor (the Rust code renders them as `atempo=...` strings; the final
stage is printed with 6 decimal places, which is exact for the values reached
here).  Division by `2.0` and `0.5` is exact in binary floating point, so `ℚ`
models the `f64` values faithfully. -/

def atempoHalve (f : ℚ) : List ℚ × ℚ :=
  if h : 2 < f then
    (2 :: (atempoHalve (f / 2)).1, (atempoHalve (f / 2)).2)
  else ([], f)
termination_by Nat.ceil f
decreasing_by
  all_goals
    have h0 : (0:ℚ) ≤ f / 2 := by linarith
    have h1 : ((Nat.ceil (f / 2) : ℚ)) < f :=
      lt_of_lt_of_le (Nat.ceil_lt_add_one h0) (by linarith)
    exact Nat.lt_ceil.mpr h1

/-- Loop `while remaining < 0.5 { parts.push("atempo=0.5"); remaining /= 0.5 }`.
The positivity guard reflects the `f <= 0.0` bail-out at the top of
`build_atempo_chain`, which guarantees `remaining > 0` whenever this loop is
reached in the Rust code (and is what makes the loop terminate). -/
def atempoDouble (f : ℚ) : List ℚ × ℚ :=
  if h : 0 < f ∧ f < 1/2 then
    ((1/2 : ℚ) :: (atempoDouble (f / (1/2))).1, (atempoDouble (f / (1/2))).2)
  else ([], f)
termination_by Nat.ceil f⁻¹
decreasing_by
  all_goals
    obtain ⟨hf, hlt⟩ := h
    have h2 : (2:ℚ) < f⁻¹ := by
      rw [show (f⁻¹ : ℚ) = 1 / f from (one_div f).symm, lt_div_iff₀ hf]
      linarith
    have he : (f / (1/2 : ℚ))⁻¹ = f⁻¹ / 2 := by
      rw [show f / (1/2 : ℚ) = 2 * f by ring, mul_inv]
      ring
    rw [he]
    have h0 : (0:ℚ) ≤ f⁻¹ / 2 := by positivity
    have h1 : ((Nat.ceil (f⁻¹ / 2) : ℚ)) < f⁻¹ :=
      lt_of_lt_of_le (Nat.ceil_lt_add_one h0) (by linarith)
    exact Nat.lt_ceil.mpr h1

/-- Embedding of `build_atempo_chain` (recipes.rs:514-533): bail out on
non-positive factors, then run the two loops and append the final stage. -/
def build_atempo_chain (f : ℚ) : Option (List ℚ) :=
  if f ≤ 0 then none
  else
    some ((atempoHalve f).1 ++ (atempoDouble (atempoHalve f).2).1 ++
      [(atempoDouble (atempoHalve f).2).2])

theorem atempoHalve_spec (f : ℚ) :
    (∃ n, (atempoHalve f).1 = List.replicate n 2) ∧
    (atempoHalve f).1.prod * (atempoHalve f).2 = f ∧
    (atempoHalve f).2 ≤ 2 ∧
    (1 < (atempoHalve f).2 ∨ (atempoHalve f).2 = f) ∧
    (0 < f → 0 < (atempoHalve f).2) := by
  induction f using atempoHalve.induct with
  | case1 f h ih =>
    rw [atempoHalve, dif_pos h]
    obtain ⟨⟨n, hn⟩, hprod, hle, hgt, hpos⟩ := ih
    refine ⟨⟨n + 1, by rw [List.replicate_succ, hn]⟩, ?_, hle, ?_, ?_⟩
    · simp only [List.prod_cons]
      rw [mul_assoc, hprod]
      ring
    · rcases hgt with hgt | heq
      · exact Or.inl hgt
      · left; rw [heq]; linarith
    · intro _
      exact hpos (by linarith)
  | case2 f h =>
    rw [atempoHalve, dif_neg h]
    push_neg at h
    exact ⟨⟨0, rfl⟩, by simp, h, Or.inr rfl, fun hf => hf⟩

theorem atempoDouble_spec (f : ℚ) :
    (∃ n, (atempoDouble f).1 = List.replicate n (1/2)) ∧
    (atempoDouble f).1.prod * (atempoDouble f).2 = f ∧
    ((atempoDouble f).2 = f ∨ (atempoDouble f).2 < 1) ∧
    (0 < f → 1/2 ≤ (atempoDouble f).2) := by
  induction f using atempoDouble.induct with
  | case1 f h ih =>
    rw [atempoDouble, dif_pos h]
    obtain ⟨⟨n, hn⟩, hprod, hlt, hge⟩ := ih
    obtain ⟨hf, hhalf⟩ := h
    refine ⟨⟨n + 1, by rw [List.replicate_succ, hn]⟩, ?_, ?_, ?_⟩
    · simp only [List.prod_cons]
      rw [mul_assoc, hprod]
      ring
    · rcases hlt with heq | hlt
      · right; rw [heq]
        have : f / (1/2 : ℚ) = 2 * f := by ring
        rw [this]; linarith
      · exact Or.inr hlt
    · intro _
      apply hge
      have : f / (1/2 : ℚ) = 2 * f := by ring
      rw [this]; linarith
  | case2 f h =>
    rw [atempoDouble, dif_neg h]
    push_neg at h
    exact ⟨⟨0, rfl⟩, by simp, Or.inl rfl, fun hf => le_of_not_lt fun hc => absurd (h hf) (by linarith)⟩

/-- C1: for every speed factor `f > 0` the tempo chain is zero or more `2.0`
stages, then zero or more `0.5` stages, then exactly one final stage whose value
lies in `[0.5, 2.0]`, and the product of all stages equals `f`; for `f = 9.0`
the stages are `[2.0, 2.0, 2.0, 1.125]`. -/
theorem build_atempo_chain_spec (f : ℚ) (hf : 0 < f) :
    (∃ (a b : ℕ) (r : ℚ),
      build_atempo_chain f =
        some (List.replicate a 2 ++ List.replicate b (1/2) ++ [r]) ∧
      1/2 ≤ r ∧ r ≤ 2 ∧
      (List.replicate a (2:ℚ) ++ List.replicate b (1/2) ++ [r]).prod = f) ∧
    build_atempo_chain 9 = some [2, 2, 2, 9/8] := by
  constructor
  · obtain ⟨⟨a, ha⟩, hprod1, hle1, hgt1, hpos1⟩ := atempoHalve_spec f
    obtain ⟨⟨b, hb⟩, hprod2, hlt2, hge2⟩ := atempoDouble_spec ((atempoHalve f).2)
    have hr1pos : 0 < (atempoHalve f).2 := hpos1 hf
    refine ⟨a, b, (atempoDouble (atempoHalve f).2).2, ?_, hge2 hr1pos, ?_, ?_⟩
    · rw [build_atempo_chain, if_neg (by linarith), ha, hb]
    · rcases hlt2 with heq | hlt
      · rw [heq]; exact hle1
      · linarith
    · rw [← ha, ← hb]
      simp only [List.prod_append, List.prod_cons, List.prod_nil]
      rw [mul_one, mul_assoc, hprod2, hprod1]
  · rw [build_atempo_chain, if_neg (by norm_num)]
    rw [atempoHalve, dif_pos (by norm_num)]
    rw [atempoHalve, dif_pos (by norm_num)]
    rw [atempoHalve, dif_pos (by norm_num)]
    rw [atempoHalve, dif_neg (by norm_num)]
    rw [atempoDouble, dif_neg (by norm_num)]
    norm_num

theorem build_atempo_chain_spec_witness :
    (∃ (a b : ℕ) (r : ℚ),
      build_atempo_chain 9 =
        some (List.replicate a 2 ++ List.replicate b (1/2) ++ [r]) ∧
      1/2 ≤ r ∧ r ≤ 2 ∧
      (List.replicate a (2:ℚ) ++ List.replicate b (1/2) ++ [r]).prod = 9) ∧
    build_atempo_chain 9 = some [2, 2, 2, 9/8] :=
  build_atempo_chain_spec 9 (by norm_num)

/-! ## Size-targeted compression bitrates (src/ffmpeg/recipes.rs, compress_steps)

Lines 186-188 of recipes.rs:
  total_bps = (target_bytes as f64 * 8.0 / duration_sec).max(50_000.0)
  audio_bps = (total_bps * 0.08).clamp(96_000.0, 160_000.0)
  video_bps = (total_bps - audio_bps).max(50_000.0)
Rust `clamp lo hi` is `min (max x lo) hi`. -/

def compress_bitrates (target_bytes : ℕ) (duration_sec : ℚ) : ℚ × ℚ × ℚ :=
  let total_bps := max ((target_bytes : ℚ) * 8 / duration_sec) 50000
  let audio_bps := min (max (total_bps * (8/100)) 96000) 160000
  let video_bps := max (total_bps - audio_bps) 50000
  (total_bps, audio_bps, video_bps)

/-- The kbps values interpolated into the `-b:v`/`-b:a` arguments
(recipes.rs:189-190): `(video_bps / 1000.0).floor()`, `(audio_bps / 1000.0).floor()`. -/
def compress_kbps (target_bytes : ℕ) (duration_sec : ℚ) : ℕ × ℕ :=
  (Nat.floor ((compress_bitrates target_bytes duration_sec).2.2 / 1000),
   Nat.floor ((compress_bitrates target_bytes duration_sec).2.1 / 1000))

/-- C2 counterexample: for a request of 1000 target bytes over 1 second,
`8·N/D = 8000` but `video_bps + audio_bps = 146000` (the 50_000 total-bitrate
floor, the 96_000 audio floor and the 50_000 video floor all engage), which is
not within any rounding tolerance of 8000. -/
theorem compress_sum_counterexample :
    (compress_bitrates 1000 1).2.2 + (compress_bitrates 1000 1).2.1 = 146000 ∧
    (1000 : ℚ) * 8 / 1 = 8000 ∧
    (compress_bitrates 1000 1).2.2 + (compress_bitrates 1000 1).2.1 ≠
      (1000 : ℚ) * 8 / 1 ∧
    |(compress_bitrates 1000 1).2.2 + (compress_bitrates 1000 1).2.1 -
      (1000 : ℚ) * 8 / 1| = 138000 := by
  norm_num [compress_bitrates]

/-- C2 (amended): the compiler computes `total_bps = max(8·N/D, 50_000)`,
`audio_bps = clamp(0.08·total_bps, 96_000, 160_000)`,
`video_bps = max(total_bps − audio_bps, 50_000)`; `audio_bps` always lies in
`[96_000, 160_000]`; and `video_bps + audio_bps` equals `8·N/D` whenever
`8·N/D ≥ 146_000` (below that threshold the floors push the sum up to
146_000, so the sum is not within rounding of `8·N/D` in general). -/
theorem compress_bitrates_spec (N : ℕ) (D : ℚ) (hD : 0 < D) :
    (compress_bitrates N D).1 = max ((N : ℚ) * 8 / D) 50000 ∧
    (compress_bitrates N D).2.1 =
      min (max ((compress_bitrates N D).1 * (8/100)) 96000) 160000 ∧
    (compress_bitrates N D).2.2 =
      max ((compress_bitrates N D).1 - (compress_bitrates N D).2.1) 50000 ∧
    96000 ≤ (compress_bitrates N D).2.1 ∧
    (compress_bitrates N D).2.1 ≤ 160000 ∧
    (146000 ≤ (N : ℚ) * 8 / D →
      (compress_bitrates N D).2.2 + (compress_bitrates N D).2.1 = (N : ℚ) * 8 / D) := by
  set T := (N : ℚ) * 8 / D with hT
  refine ⟨rfl, rfl, rfl, le_min (le_max_right _ _) (by norm_num), min_le_right _ _, ?_⟩
  intro h146
  have htot : max T 50000 = T := max_eq_left (by linarith)
  simp only [compress_bitrates, htot]
  set a := min (max (T * (8/100)) 96000) 160000 with ha
  have ha_le : a ≤ T - 50000 := by
    rcases le_or_lt (T * (8/100)) 96000 with hc | hc
    · have : max (T * (8/100)) 96000 = 96000 := max_eq_right hc
      rw [ha, this]
      have : min (96000 : ℚ) 160000 = 96000 := by norm_num
      rw [this]; linarith
    · have hmax : max (T * (8/100)) 96000 = T * (8/100) := max_eq_left (le_of_lt hc)
      rw [ha, hmax]
      have : min (T * (8/100)) 160000 ≤ T * (8/100) := min_le_left _ _
      linarith
  have hv : max (T - a) 50000 = T - a := max_eq_left (by linarith)
  rw [hv]
  ring

theorem compress_bitrates_spec_witness :
    (compress_bitrates 1000000 4).1 = max ((1000000 : ℚ) * 8 / 4) 50000 ∧
    (compress_bitrates 1000000 4).2.1 =
      min (max ((compress_bitrates 1000000 4).1 * (8/100)) 96000) 160000 ∧
    (compress_bitrates 1000000 4).2.2 =
      max ((compress_bitrates 1000000 4).1 - (compress_bitrates 1000000 4).2.1) 50000 ∧
    96000 ≤ (compress_bitrates 1000000 4).2.1 ∧
    (compress_bitrates 1000000 4).2.1 ≤ 160000 ∧
    (146000 ≤ (1000000 : ℚ) * 8 / 4 →
      (compress_bitrates 1000000 4).2.2 + (compress_bitrates 1000000 4).2.1 =
        (1000000 : ℚ) * 8 / 4) :=
  compress_bitrates_spec 1000000 4 (by norm_num)

/-! ## Process invocations and the execution engine
(src/ffmpeg/step.rs, src/ffmpeg/runner.rs, and the per-command driver loops
such as src/commands/trim.rs lines 21-23) -/

/-- A single external process invocation: program name plus argument vector
(step.rs). -/
structure Step where
  program : String
  args : List String
deriving DecidableEq

/-- Live-mode execution of one step by `CliRunner::run` (runner.rs:33-57,
with `dry_run = false`): the spawned process's exit status is supplied by the
oracle `exitOf`; a non-zero status produces an error identifying the step and
its status (`bail!("{} failed with status: {}", ...)`), zero succeeds.  The
progress-stream parsing is pure observability and does not affect the
outcome. -/
def runLive (exitOf : Step → Int) (s : Step) : Except (Step × Int) Unit :=
  if exitOf s = 0 then Except.ok () else Except.error (s, exitOf s)

/-- The sequencing loop every command handler uses
(`for step in steps { runner.run(&step)?; }`, e.g. trim.rs:21-23): returns the
list of steps actually handed to the runner, in order, together with the
overall result; the `?` aborts at the first error. -/
def run_sequence (runOne : Step → Except (Step × Int) Unit) :
    List Step → List Step × Except (Step × Int) Unit
  | [] => ([], Except.ok ())
  | s :: rest =>
    match runOne s with
    | Except.error e => ([s], Except.error e)
    | Except.ok _ =>
      ((s :: (run_sequence runOne rest).1), (run_sequence runOne rest).2)

theorem run_sequence_prefix (runOne : Step → Except (Step × Int) Unit)
    (steps : List Step) : (run_sequence runOne steps).1 <+: steps := by
  induction steps with
  | nil => simp [run_sequence]
  | cons s rest ih =>
    rw [run_sequence]
    cases runOne s with
    | error e => exact ⟨rest, rfl⟩
    | ok u => exact (List.prefix_cons_inj s).mpr ih

/-- C5: in Live mode invocations run strictly in order and the first non-zero
exit status aborts the remainder: if the first invocation fails, it is the only
one handed to the runner (nothing later is spawned, nothing is retried), and
the overall result is a failure carrying that invocation and its status; in
particular for a three-invocation sequence the second and third are never
spawned.  The executed list is always a prefix of the compiled sequence, so no
invocation is reordered, repeated, or rolled back. -/
theorem live_mode_fail_fast (exitOf : Step → Int) (s1 s2 s3 : Step)
    (h : exitOf s1 ≠ 0) :
    (∀ rest : List Step,
      run_sequence (runLive exitOf) (s1 :: rest) =
        ([s1], Except.error (s1, exitOf s1))) ∧
    run_sequence (runLive exitOf) [s1, s2, s3] =
      ([s1], Except.error (s1, exitOf s1)) ∧
    (∀ steps : List Step, (run_sequence (runLive exitOf) steps).1 <+: steps) := by
  have hrun : runLive exitOf s1 = Except.error (s1, exitOf s1) := by
    rw [runLive, if_neg h]
  refine ⟨fun rest => ?_, ?_, run_sequence_prefix _⟩
  · rw [run_sequence, hrun]
  · rw [run_sequence, hrun]

theorem live_mode_fail_fast_witness :
    (∀ rest : List Step,
      run_sequence (runLive fun _ => 1) (Step.mk "ffmpeg" ["-i", "a.mp4"] :: rest) =
        ([Step.mk "ffmpeg" ["-i", "a.mp4"]],
          Except.error (Step.mk "ffmpeg" ["-i", "a.mp4"], 1))) ∧
    run_sequence (runLive fun _ => 1)
        [Step.mk "ffmpeg" ["-i", "a.mp4"], Step.mk "ffmpeg" ["-i", "b.mp4"],
          Step.mk "ffmpeg" ["-i", "c.mp4"]] =
      ([Step.mk "ffmpeg" ["-i", "a.mp4"]],
        Except.error (Step.mk "ffmpeg" ["-i", "a.mp4"], 1)) ∧
    (∀ steps : List Step, (run_sequence (runLive fun _ => 1) steps).1 <+: steps) :=
  live_mode_fail_fast (fun _ => 1) (Step.mk "ffmpeg" ["-i", "a.mp4"])
    (Step.mk "ffmpeg" ["-i", "b.mp4"]) (Step.mk "ffmpeg" ["-i", "c.mp4"])
    (by decide)

/-! ## GIF conversion (src/ffmpeg/recipes.rs, gif_steps) -/

/-- Quality presets (src/model/types.rs). -/
inductive QualityPreset where
  | Low
  | Medium
  | High
  | Ultra
deriving DecidableEq

/-- The fps/width adjustment at the top of `gif_steps` (recipes.rs:68-77). -/
def gif_quality_params (fps width : ℕ) : Option QualityPreset → ℕ × ℕ
  | some QualityPreset.Low => (10, 320)
  | some QualityPreset.Medium => (fps, width)
  | some QualityPreset.High => (20, 640)
  | some QualityPreset.Ultra => (30, 800)
  | none => (fps, width)

/-- Embedding of `gif_steps` (recipes.rs:58-107): palette generation writing
`palette_path`, then palette application reading it back as a second input. -/
def gif_steps (input output palette_path : String) (fps width : ℕ)
    (quality : Option QualityPreset) : List Step :=
  [ Step.mk "ffmpeg"
      ["-y", "-i", input, "-vf",
        "fps=" ++ toString (gif_quality_params fps width quality).1 ++
          ",scale=" ++ toString (gif_quality_params fps width quality).2 ++
          ":-1:flags=lanczos,palettegen",
        palette_path],
    Step.mk "ffmpeg"
      ["-y", "-i", input, "-i", palette_path, "-lavfi",
        "fps=" ++ toString (gif_quality_params fps width quality).1 ++
          ",scale=" ++ toString (gif_quality_params fps width quality).2 ++
          ":-1:flags=lanczos[x];[x][1:v]paletteuse=dither=bayer",
        output] ]

/-- C6: every convert-to-GIF compilation yields exactly two invocations in
order: a palette-generation invocation whose output (trailing argument) is the
palette path, then a palette-application invocation that takes that palette
path as one of its `-i` inputs. -/
theorem gif_steps_two_pass (input output palette : String) (fps width : ℕ)
    (quality : Option QualityPreset) :
    ∃ s1 s2, gif_steps input output palette fps width quality = [s1, s2] ∧
      s1.program = "ffmpeg" ∧ s2.program = "ffmpeg" ∧
      s1.args.getLast? = some palette ∧
      s2.args.take 5 = ["-y", "-i", input, "-i", palette] := by
  refine ⟨_, _, rfl, rfl, rfl, ?_, rfl⟩
  rfl

/-! ## Crossfade compilation (src/ffmpeg/recipes.rs, crossfade_steps)

The probe facade `probe::duration_seconds` is modelled by an environment
`env : String → Except String ℚ` (duration in seconds, or a probe failure that
the compiler propagates via `?`).  Each call appends the queried path to a log
so that "exactly once per source" is a statement about the call trace. -/

/-- One probe-facade call: returns the duration and records the queried path. -/
def probe_duration (env : String → Except String ℚ) (path : String)
    (log : List String) : Except String (ℚ × List String) :=
  match env path with
  | Except.error e => Except.error e
  | Except.ok d => Except.ok (d, log ++ [path])

/-- Embedding of the duration-dependent part of `crossfade_steps`
(recipes.rs:1449-1514): probe video1, probe video2 (each once, in that order),
take `min_duration = min d1 d2` and emit the xfade filter with
`offset = max(min_duration − crossfade_duration, 0)`.  The result is the
transition offset interpolated after `offset=` in the
`xfade=transition=fade:duration=..:offset=..` filter, together with the probe
call log. -/
def crossfade_compile (env : String → Except String ℚ) (video1 video2 : String)
    (crossfade_duration : ℚ) : Except String (ℚ × List String) :=
  match probe_duration env video1 [] with
  | Except.error e => Except.error e
  | Except.ok (d1, log1) =>
    match probe_duration env video2 log1 with
    | Except.error e => Except.error e
    | Except.ok (d2, log2) =>
      Except.ok (max (min d1 d2 - crossfade_duration) 0, log2)

/-- C4: a crossfade compilation over sources with probed durations `d1`, `d2`
and transition duration `t` queries the probe facade exactly once per source
(the call log is exactly `[video1, video2]`) and the emitted xfade filter uses
transition offset `max(min(d1, d2) − t, 0)`. -/
theorem crossfade_probe_once_offset (env : String → Except String ℚ)
    (v1 v2 : String) (t d1 d2 : ℚ)
    (h1 : env v1 = Except.ok d1) (h2 : env v2 = Except.ok d2) :
    crossfade_compile env v1 v2 t =
      Except.ok (max (min d1 d2 - t) 0, [v1, v2]) := by
  simp only [crossfade_compile, probe_duration, h1, h2]
  rfl

theorem crossfade_probe_once_offset_witness :
    crossfade_compile (fun p => Except.ok (if p = "a.mp4" then 10 else 8))
        "a.mp4" "b.mp4" 3 =
      Except.ok (max (min 10 8 - 3) 0, ["a.mp4", "b.mp4"]) :=
  crossfade_probe_once_offset (fun p => Except.ok (if p = "a.mp4" then 10 else 8))
    "a.mp4" "b.mp4" 3 10 8 (by simp) (by simp)

/-! ## Grid (montage) composition (src/ffmpeg/recipes.rs, montage_steps)

The filter-graph expression is built exactly as in the Rust code
(recipes.rs:1373-1424): a fixed 320x240 cell, one scale+pad stage per input,
one hstack stage per populated row, a vstack stage only when more than one row
is populated, and a final rescale of the composed frame to `cols * 320`. -/

def cell_width : ℕ := 320

def cell_height : ℕ := 240

/-- Per-input scale+letterbox stage (recipes.rs:1380-1385). -/
def montage_scale_part (i : ℕ) : String :=
  "[" ++ toString i ++ ":v]scale=" ++ toString cell_width ++ ":" ++
    toString cell_height ++ ":force_original_aspect_ratio=decrease,pad=" ++
    toString cell_width ++ ":" ++ toString cell_height ++
    ":(ow-iw)/2:(oh-ih)/2[v" ++ toString i ++ "]"

/-- The cell labels feeding row `r` (recipes.rs:1392-1398): indices
`r*cols + col` for `col < cols` that are below the input count. -/
def montage_row_inputs (n cols r : ℕ) : List String :=
  (List.range cols).filterMap fun c =>
    if r * cols + c < n then some ("[v" ++ toString (r * cols + c) ++ "]") else none

/-- The hstack stage for row `r` (recipes.rs:1399-1405). -/
def montage_row_filter (n cols r : ℕ) : String :=
  String.join (montage_row_inputs n cols r) ++ "hstack=inputs=" ++
    toString (montage_row_inputs n cols r).length ++ "[row" ++ toString r ++ "]"

/-- Row filters, skipping rows with no cells (recipes.rs:1391-1406). -/
def montage_row_filters (n cols rows : ℕ) : List String :=
  (List.range rows).filterMap fun r =>
    if montage_row_inputs n cols r = [] then none
    else some (montage_row_filter n cols r)

/-- Row labels, produced alongside the row filters. -/
def montage_row_labels (n cols rows : ℕ) : List String :=
  (List.range rows).filterMap fun r =>
    if montage_row_inputs n cols r = [] then none
    else some ("[row" ++ toString r ++ "]")

def montage_output_width (cols : ℕ) : ℕ := cols * cell_width

/-- Rust `trim_start_matches('[').trim_end_matches(']')`. -/
def stripBrackets (s : String) : String :=
  String.mk (((s.data.dropWhile fun c => c = '[').reverse.dropWhile
    fun c => c = ']').reverse)

/-- The filter_complex expression of `montage_steps` (recipes.rs:1408-1424).
`headD ""` models the Rust `row_labels[0]` indexing, which would panic on an
empty label list; that list is provably nonempty whenever there is at least
one input and at least one column. -/
def montage_filter_complex (n cols rows : ℕ) : String :=
  String.intercalate ";" ((List.range n).map montage_scale_part) ++ ";" ++
    String.intercalate ";" (montage_row_filters n cols rows) ++ ";" ++
    (if 1 < (montage_row_labels n cols rows).length then
      String.join (montage_row_labels n cols rows) ++ "vstack=inputs=" ++
        toString (montage_row_labels n cols rows).length ++
        "[vstack];[vstack]scale=" ++ toString (montage_output_width cols) ++
        ":-2[v]"
    else
      "[" ++ stripBrackets ((montage_row_labels n cols rows).headD "") ++
        "]scale=" ++ toString (montage_output_width cols) ++ ":-2[v]")

/-- Lowercased extension of a path, `""` when there is none
(the `input.extension() ... to_lowercase ... unwrap_or_default` prelude of
`get_audio_codec`, recipes.rs:35-43). -/
def path_extension (p : String) : String :=
  if (p.splitOn ".").length ≤ 1 then ""
  else ((p.splitOn ".").getLastD "").map Char.toLower

/-- Codec-compatibility table for audio (recipes.rs:34-54). -/
def get_audio_codec (input output : String) : String :=
  if (path_extension input = "webm" ∨ path_extension input = "wmv" ∨
      path_extension input = "mkv") ∧ path_extension output = "mp4" then "aac"
  else if (path_extension input = "mp4" ∨ path_extension input = "avi" ∨
      path_extension input = "mov") ∧ path_extension output = "webm" then
    "libopus"
  else "copy"

/-- Embedding of `montage_steps` (recipes.rs:1353-1445): one invocation whose
filter graph is `montage_filter_complex`. -/
def montage_steps (videos : List String) (output : String) (cols rows : ℕ)
    (overwrite : Bool) : List Step :=
  [Step.mk "ffmpeg"
    ((if overwrite then "-y" else "-n") ::
      ((videos.map fun v => ["-i", v]).flatten ++
        ["-filter_complex", montage_filter_complex videos.length cols rows,
          "-map", "[v]", "-map", "0:a?", "-c:v", "libx264",
          "-pix_fmt", "yuv420p", "-c:a",
          (match videos with
            | [] => "copy"
            | v :: _ => get_audio_codec v output),
          output]))]

theorem montage_row_inputs_eq_nil_iff (n cols r : ℕ) (hc : 1 ≤ cols) :
    montage_row_inputs n cols r = [] ↔ n ≤ r * cols := by
  constructor
  · intro h
    by_contra hn
    push_neg at hn
    have h0 : (0:ℕ) ∈ List.range cols := List.mem_range.mpr hc
    have hmem : ("[v" ++ toString (r * cols + 0) ++ "]") ∈
        montage_row_inputs n cols r := by
      unfold montage_row_inputs
      refine List.mem_filterMap.mpr ⟨0, h0, ?_⟩
      rw [if_pos (by omega)]
    rw [h] at hmem
    exact absurd hmem (List.not_mem_nil _)
  · intro h
    unfold montage_row_inputs
    refine List.filterMap_eq_nil_iff.mpr fun c _ => ?_
    rw [if_neg (by omega)]

theorem filterMap_range'_eq_nil {α : Type} (f : ℕ → Option α) (s k : ℕ)
    (h : ∀ r, s ≤ r → f r = none) :
    List.filterMap f (List.range' s k) = [] := by
  induction k generalizing s with
  | zero => rfl
  | succ k ih =>
    show List.filterMap f (s :: List.range' (s + 1) k) = []
    rw [List.filterMap_cons, h s le_rfl]
    exact ih (s + 1) fun r hr => h r (by omega)

theorem montage_row_labels_single (n cols rows : ℕ) (h1 : 1 ≤ n)
    (hn : n ≤ cols) (hr : 1 ≤ rows) :
    montage_row_labels n cols rows = ["[row0]"] := by
  have hc : 1 ≤ cols := le_trans h1 hn
  obtain ⟨k, rfl⟩ : ∃ k, rows = k + 1 := ⟨rows - 1, by omega⟩
  unfold montage_row_labels
  rw [List.range_eq_range']
  show List.filterMap _ (0 :: List.range' 1 k) = _
  rw [List.filterMap_cons]
  have h0 : ¬ montage_row_inputs n cols 0 = [] := by
    rw [montage_row_inputs_eq_nil_iff n cols 0 hc]
    omega
  rw [if_neg h0]
  rw [filterMap_range'_eq_nil _ 1 k fun r hr => ?_]
  · rfl
  · rw [if_pos]
    rw [montage_row_inputs_eq_nil_iff n cols r hc]
    calc n ≤ cols := hn
    _ ≤ r * cols := by
      have : 1 * cols ≤ r * cols := Nat.mul_le_mul_right cols hr
      omega

theorem montage_row_labels_two_le (n cols rows : ℕ) (h1 : 1 ≤ n)
    (hcn : cols < n) (h2 : n ≤ cols * rows) (hc : 1 ≤ cols) :
    2 ≤ (montage_row_labels n cols rows).length := by
  have hrows : 2 ≤ rows := by
    by_contra hlt
    push_neg at hlt
    have : cols * rows ≤ cols * 1 := Nat.mul_le_mul_left cols (by omega)
    omega
  obtain ⟨k, rfl⟩ : ∃ k, rows = k + 2 := ⟨rows - 2, by omega⟩
  unfold montage_row_labels
  rw [List.range_eq_range']
  show 2 ≤ (List.filterMap _ (0 :: 1 :: List.range' 2 k)).length
  rw [List.filterMap_cons, if_neg (by
    rw [montage_row_inputs_eq_nil_iff n cols 0 hc]; omega)]
  rw [List.filterMap_cons, if_neg (by
    rw [montage_row_inputs_eq_nil_iff n cols 1 hc]; omega)]
  simp

/-- C3: for a grid compilation with `cols*rows ≥ n ≥ 1` inputs, the filter
graph is the per-input fixed-cell scale chain, then the per-row hstack chain,
then: if more than one row is populated (exactly when `n > cols`) a vstack of
the row labels followed by a rescale of the composed frame, otherwise the
single row fed directly into the rescale; the final rescale width is
`cols * 320`, which is even and divisible by `cols`. -/
theorem montage_grid_structure (n cols rows : ℕ) (h1 : 1 ≤ n)
    (h2 : n ≤ cols * rows) (hc : 1 ≤ cols) (hr : 1 ≤ rows) :
    montage_output_width cols % 2 = 0 ∧
    cols ∣ montage_output_width cols ∧
    (1 < (montage_row_labels n cols rows).length ↔ cols < n) ∧
    (n ≤ cols →
      montage_filter_complex n cols rows =
        String.intercalate ";" ((List.range n).map montage_scale_part) ++ ";" ++
        String.intercalate ";" (montage_row_filters n cols rows) ++ ";" ++
        ("[row0]scale=" ++ toString (montage_output_width cols) ++ ":-2[v]")) ∧
    (cols < n →
      montage_filter_complex n cols rows =
        String.intercalate ";" ((List.range n).map montage_scale_part) ++ ";" ++
        String.intercalate ";" (montage_row_filters n cols rows) ++ ";" ++
        (String.join (montage_row_labels n cols rows) ++ "vstack=inputs=" ++
          toString (montage_row_labels n cols rows).length ++
          "[vstack];[vstack]scale=" ++ toString (montage_output_width cols) ++
          ":-2[v]")) := by
  have hiff : 1 < (montage_row_labels n cols rows).length ↔ cols < n := by
    constructor
    · intro hlen
      by_contra hle
      push_neg at hle
      rw [montage_row_labels_single n cols rows h1 hle hr] at hlen
      simp at hlen
    · intro hcn
      exact montage_row_labels_two_le n cols rows h1 hcn h2 hc
  refine ⟨?_, ⟨cell_width, rfl⟩, hiff, ?_, ?_⟩
  · show cols * cell_width % 2 = 0
    rw [cell_width]
    omega
  · intro hle
    have hlab := montage_row_labels_single n cols rows h1 hle hr
    rw [montage_filter_complex, if_neg (by rw [hlab]; simp), hlab]
    rw [show ("[" ++ stripBrackets (["[row0]"].headD "") ++ "]scale=" : String) =
      "[row0]scale=" from rfl]
  · intro hcn
    rw [montage_filter_complex, if_pos (hiff.mpr hcn)]

theorem montage_grid_structure_witness :
    montage_output_width 2 % 2 = 0 ∧
    2 ∣ montage_output_width 2 ∧
    (1 < (montage_row_labels 4 2 2).length ↔ 2 < 4) ∧
    (4 ≤ 2 →
      montage_filter_complex 4 2 2 =
        String.intercalate ";" ((List.range 4).map montage_scale_part) ++ ";" ++
        String.intercalate ";" (montage_row_filters 4 2 2) ++ ";" ++
        ("[row0]scale=" ++ toString (montage_output_width 2) ++ ":-2[v]")) ∧
    (2 < 4 →
      montage_filter_complex 4 2 2 =
        String.intercalate ";" ((List.range 4).map montage_scale_part) ++ ";" ++
        String.intercalate ";" (montage_row_filters 4 2 2) ++ ";" ++
        (String.join (montage_row_labels 4 2 2) ++ "vstack=inputs=" ++
          toString (montage_row_labels 4 2 2).length ++
          "[vstack];[vstack]scale=" ++ toString (montage_output_width 2) ++
          ":-2[v]")) :=
  montage_grid_structure 4 2 2 (by norm_num) (by norm_num) (by norm_num)
    (by norm_num)

/-! ## Character-level infrastructure for the value parsers

Rust strings are modelled as `String`/`List Char`.  Decimal rendering of
numbers (Rust `format!`) is `natRepr`, decimal reading (Rust `parse::<u32>` on
an all-digit group) is `decodeDigits`. -/

/-- Horner-style decimal reading of a digit-character list. -/
def decodeDigits (l : List Char) : ℕ :=
  l.foldl (fun acc c => 10 * acc + (c.toNat - 48)) 0

def digitChar (d : ℕ) : Char := Char.ofNat (48 + d)

/-- Little-endian base-10 digits with explicit fuel (so that the kernel can
evaluate it); with fuel `≥ n` it agrees with `Nat.digits 10 n`. -/
def digitsLE : ℕ → ℕ → List ℕ
  | 0, _ => []
  | _ + 1, 0 => []
  | fuel + 1, n + 1 => ((n + 1) % 10) :: digitsLE fuel ((n + 1) / 10)

/-- Decimal rendering of a natural number (Rust `format!("{}")` on an
unsigned integer). -/
def natRepr (n : ℕ) : List Char :=
  if n = 0 then ['0'] else (digitsLE n n).reverse.map digitChar

/-- Rust `format!("{:02}")`: pad with a leading zero to width two. -/
def pad2 (n : ℕ) : List Char :=
  if (natRepr n).length < 2 then '0' :: natRepr n else natRepr n

theorem digitsLE_eq_digits (fuel : ℕ) :
    ∀ n, n ≤ fuel → digitsLE fuel n = Nat.digits 10 n := by
  induction fuel with
  | zero =>
    intro n h
    interval_cases n
    rw [Nat.digits_zero]
    rfl
  | succ f ih =>
    intro n h
    match n with
    | 0 =>
      rw [Nat.digits_zero]
      rfl
    | m + 1 =>
      rw [Nat.digits_def' (by norm_num : (1:ℕ) < 10) (Nat.succ_pos m)]
      show ((m + 1) % 10) :: digitsLE f ((m + 1) / 10) = _
      have hlt : (m + 1) / 10 ≤ f := by
        have := Nat.div_lt_self (Nat.succ_pos m) (by norm_num : 1 < 10)
        omega
      rw [ih ((m + 1) / 10) hlt]

theorem digitChar_toNat (d : ℕ) (h : d < 10) : (digitChar d).toNat = 48 + d := by
  interval_cases d <;> decide

theorem digitChar_isDigit (d : ℕ) (h : d < 10) : (digitChar d).isDigit = true := by
  interval_cases d <;> decide

theorem decodeDigits_revMap (ds : List ℕ) (h : ∀ d ∈ ds, d < 10) :
    decodeDigits (ds.reverse.map digitChar) = Nat.ofDigits 10 ds := by
  induction ds with
  | nil => rfl
  | cons d ds ih =>
    rw [List.reverse_cons, List.map_append]
    unfold decodeDigits
    rw [List.foldl_append]
    have hfold : (ds.reverse.map digitChar).foldl
        (fun acc c => 10 * acc + (c.toNat - 48)) 0 = Nat.ofDigits 10 ds :=
      ih fun x hx => h x (List.mem_cons_of_mem d hx)
    rw [hfold, Nat.ofDigits_cons]
    show 10 * Nat.ofDigits 10 ds + ((digitChar d).toNat - 48) = _
    rw [digitChar_toNat d (h d (List.mem_cons_self d ds))]
    omega

theorem decodeDigits_natRepr (n : ℕ) : decodeDigits (natRepr n) = n := by
  rw [natRepr]
  by_cases h : n = 0
  · rw [if_pos h, h]
    rfl
  · rw [if_neg h, digitsLE_eq_digits n n le_rfl,
      decodeDigits_revMap _ fun d hd => Nat.digits_lt_base (by norm_num) hd]
    exact_mod_cast Nat.ofDigits_digits 10 n

theorem natRepr_ne_nil (n : ℕ) : natRepr n ≠ [] := by
  rw [natRepr]
  by_cases h : n = 0
  · rw [if_pos h]
    exact fun hc => List.noConfusion hc
  · rw [if_neg h]
    intro hc
    have : Nat.digits 10 n = [] := by
      have := congrArg List.length hc
      rw [digitsLE_eq_digits n n le_rfl] at this
      simpa using this
    exact h ((Nat.digits_eq_nil_iff_eq_zero).mp this)

theorem natRepr_all_isDigit (n : ℕ) : ∀ c ∈ natRepr n, c.isDigit = true := by
  intro c hc
  rw [natRepr] at hc
  by_cases h : n = 0
  · rw [if_pos h] at hc
    simp at hc
    rw [hc]
    decide
  · rw [if_neg h] at hc
    obtain ⟨d, hd, rfl⟩ := List.mem_map.mp hc
    rw [digitsLE_eq_digits n n le_rfl] at hd
    exact digitChar_isDigit d
      (Nat.digits_lt_base (by norm_num) (List.mem_reverse.mp hd))

theorem two_le_pad2_length (n : ℕ) : 2 ≤ (pad2 n).length := by
  rw [pad2]
  have h1 : 1 ≤ (natRepr n).length :=
    List.length_pos.mpr (natRepr_ne_nil n)
  by_cases h : (natRepr n).length < 2
  · rw [if_pos h]
    simp
    omega
  · rw [if_neg h]
    omega

theorem pad2_all_isDigit (n : ℕ) : ∀ c ∈ pad2 n, c.isDigit = true := by
  intro c hc
  rw [pad2] at hc
  by_cases h : (natRepr n).length < 2
  · rw [if_pos h] at hc
    rcases List.mem_cons.mp hc with rfl | hc
    · decide
    · exact natRepr_all_isDigit n c hc
  · rw [if_neg h] at hc
    exact natRepr_all_isDigit n c hc

theorem decodeDigits_cons_zero (l : List Char) :
    decodeDigits ('0' :: l) = decodeDigits l := rfl

theorem decodeDigits_pad2 (n : ℕ) : decodeDigits (pad2 n) = n := by
  rw [pad2]
  by_cases h : (natRepr n).length < 2
  · rw [if_pos h, decodeDigits_cons_zero, decodeDigits_natRepr]
  · rw [if_neg h, decodeDigits_natRepr]

theorem digit_not_whitespace (c : Char) (h : c.isDigit = true) :
    c.isWhitespace = false := by
  by_contra hw
  rw [Bool.not_eq_false] at hw
  simp only [Char.isWhitespace, Bool.or_eq_true, decide_eq_true_eq] at hw
  rcases hw with ((h' | h') | h') | h' <;> rw [h'] at h <;>
    exact absurd h (by decide)

theorem isDigit_ne (c c0 : Char) (h : c.isDigit = true)
    (h0 : c0.isDigit = false) : c ≠ c0 := by
  intro he
  rw [he, h0] at h
  exact Bool.noConfusion h

/-- Rust `str::trim` (leading and trailing whitespace removed; the Rust
version trims the full Unicode whitespace set, of which the ASCII subset is
what the accepted numeric shapes can contain). -/
def trimChars (l : List Char) : List Char :=
  ((l.dropWhile Char.isWhitespace).reverse.dropWhile Char.isWhitespace).reverse

theorem dropWhile_ws_eq_self (l : List Char)
    (h : ∀ c ∈ l, c.isWhitespace = false) :
    l.dropWhile Char.isWhitespace = l := by
  cases l with
  | nil => rfl
  | cons c r =>
    rw [List.dropWhile_cons, h c (List.mem_cons_self c r)]
    simp

theorem trimChars_eq_self (l : List Char)
    (h : ∀ c ∈ l, c.isWhitespace = false) : trimChars l = l := by
  rw [trimChars, dropWhile_ws_eq_self l h,
    dropWhile_ws_eq_self l.reverse fun c hc => h c (List.mem_reverse.mp hc),
    List.reverse_reverse]

/-! ## Time values (src/model/types.rs, `Time`)

The regex `^(\d+)(?::(\d{1,2}))?(?::(\d{1,2}))?$` accepts exactly the strings
that split on `:` into one to three groups where the first group is a
nonempty digit run and the optional groups are 1-2 digit runs; `splitOnColon`
is the `:`-splitter (keeping empty parts, as `str::split` would). -/

def splitOnColon : List Char → List (List Char)
  | [] => [[]]
  | c :: rest =>
    if c = ':' then [] :: splitOnColon rest
    else
      match splitOnColon rest with
      | [] => [[c]]
      | p :: ps => (c :: p) :: ps

theorem splitOnColon_no_colon (A : List Char) (hA : ∀ c ∈ A, c ≠ ':') :
    splitOnColon A = [A] := by
  induction A with
  | nil => rfl
  | cons c A ih =>
    rw [splitOnColon, if_neg (hA c (List.mem_cons_self c A)),
      ih fun x hx => hA x (List.mem_cons_of_mem c hx)]

theorem splitOnColon_append (A B : List Char) (hA : ∀ c ∈ A, c ≠ ':') :
    splitOnColon (A ++ ':' :: B) = A :: splitOnColon B := by
  induction A with
  | nil =>
    show splitOnColon (':' :: B) = [] :: splitOnColon B
    rw [splitOnColon, if_pos rfl]
  | cons c A ih =>
    show splitOnColon (c :: (A ++ ':' :: B)) = _
    rw [splitOnColon, if_neg (hA c (List.mem_cons_self c A)),
      ih fun x hx => hA x (List.mem_cons_of_mem c hx)]

/-- Time values (types.rs:8-12); the `u32` fields become `ℕ` with the
`parse::<u32>` range check made explicit in `Time.parse`. -/
structure Time where
  hours : ℕ
  minutes : ℕ
  seconds : ℕ
deriving DecidableEq

/-- Embedding of `Time::parse` (types.rs:16-43): trim, match the regex
`^(\d+)(?::(\d{1,2}))?(?::(\d{1,2}))?$`, read the groups as `u32`
(the first, unbounded group carries the explicit `< 2^32` overflow check of
`parse::<u32>`; the 1-2 digit groups always fit), and assign them to
hours/minutes/seconds according to how many groups are present.  `\d` is
taken as ASCII digits: non-ASCII Unicode digits would match the Rust regex
but then fail `parse::<u32>`, so both implementations reject such input. -/
def Time.parse (s : String) : Option Time :=
  match splitOnColon (trimChars s.data) with
  | [a] =>
    if a ≠ [] ∧ a.all Char.isDigit = true ∧ decodeDigits a < 2 ^ 32 then
      some ⟨0, 0, decodeDigits a⟩
    else none
  | [a, b] =>
    if a ≠ [] ∧ a.all Char.isDigit = true ∧ decodeDigits a < 2 ^ 32 ∧
        1 ≤ b.length ∧ b.length ≤ 2 ∧ b.all Char.isDigit = true then
      some ⟨0, decodeDigits a, decodeDigits b⟩
    else none
  | [a, b, c] =>
    if a ≠ [] ∧ a.all Char.isDigit = true ∧ decodeDigits a < 2 ^ 32 ∧
        1 ≤ b.length ∧ b.length ≤ 2 ∧ b.all Char.isDigit = true ∧
        1 ≤ c.length ∧ c.length ≤ 2 ∧ c.all Char.isDigit = true then
      some ⟨decodeDigits a, decodeDigits b, decodeDigits c⟩
    else none
  | _ => none

/-- Embedding of `Time::to_ffmpeg` (types.rs:46-48):
`format!("{:02}:{:02}:{:02}", hours, minutes, seconds)`. -/
def Time.to_ffmpeg (t : Time) : String :=
  String.mk (pad2 t.hours ++ ':' :: pad2 t.minutes ++ ':' :: pad2 t.seconds)

/-- Embedding of `Time::to_seconds` (types.rs:51-53).  The Rust arithmetic is
on `u32`; for the hour ranges any realistic time denotes this is exact, and
the claim's own gloss fixes the mathematical reading used here. -/
def Time.to_seconds (t : Time) : ℕ :=
  t.hours * 3600 + t.minutes * 60 + t.seconds

/-- The string `s` is of shape `A:B:C` with `A`, `B`, `C` zero-padded (at
least two characters) digit runs whose standard reading
`A·3600 + B·60 + C` is `n`. -/
def DenotesHMS (s : String) (n : ℕ) : Prop :=
  ∃ a b c : List Char,
    2 ≤ a.length ∧ 2 ≤ b.length ∧ 2 ≤ c.length ∧
    (∀ ch ∈ a, ch.isDigit = true) ∧ (∀ ch ∈ b, ch.isDigit = true) ∧
    (∀ ch ∈ c, ch.isDigit = true) ∧
    s.data = a ++ ':' :: b ++ ':' :: c ∧
    decodeDigits a * 3600 + decodeDigits b * 60 + decodeDigits c = n

/-- C7: rendering any parsed `Time` value to toolkit format produces a
zero-padded `HH:MM:SS` string denoting exactly `to_seconds` of the parsed
value. -/
theorem time_render_roundtrip (s : String) (t : Time)
    (h : Time.parse s = some t) :
    DenotesHMS t.to_ffmpeg t.to_seconds := by
  refine ⟨pad2 t.hours, pad2 t.minutes, pad2 t.seconds,
    two_le_pad2_length _, two_le_pad2_length _, two_le_pad2_length _,
    pad2_all_isDigit _, pad2_all_isDigit _, pad2_all_isDigit _, rfl, ?_⟩
  rw [decodeDigits_pad2, decodeDigits_pad2, decodeDigits_pad2]
  rfl

theorem time_render_roundtrip_witness :
    DenotesHMS (Time.to_ffmpeg ⟨1, 5, 30⟩) (Time.to_seconds ⟨1, 5, 30⟩) :=
  time_render_roundtrip "1:05:30" ⟨1, 5, 30⟩ (by decide)

theorem all_isDigit_not_ws (l : List Char) (h : l.all Char.isDigit = true) :
    ∀ c ∈ l, c.isWhitespace = false := fun c hc =>
  digit_not_whitespace c (List.all_eq_true.mp h c hc)

theorem all_isDigit_ne_colon (l : List Char) (h : l.all Char.isDigit = true) :
    ∀ c ∈ l, c ≠ ':' := fun c hc =>
  isDigit_ne c ':' (List.all_eq_true.mp h c hc) (by decide)

/-- C10: `Time::parse` performs no upper-bound validation on the minute or
second groups: any `M:SS` or `H:MM:SS` shape with 1-2 digit groups parses
successfully with the components kept exactly as written, even when a group
is 60 or more; in particular `"1:90"` parses to minutes 1, seconds 90, so
`to_seconds` is 150 and `to_ffmpeg` renders the non-normalized `"00:01:90"`. -/
theorem time_parse_no_range_check (a b c : List Char)
    (ha1 : a ≠ []) (ha2 : a.all Char.isDigit = true)
    (ha3 : decodeDigits a < 2 ^ 32)
    (hb1 : 1 ≤ b.length) (hb2 : b.length ≤ 2) (hb3 : b.all Char.isDigit = true)
    (hc1 : 1 ≤ c.length) (hc2 : c.length ≤ 2)
    (hc3 : c.all Char.isDigit = true) :
    Time.parse (String.mk (a ++ ':' :: b)) =
      some ⟨0, decodeDigits a, decodeDigits b⟩ ∧
    Time.parse (String.mk (a ++ ':' :: (b ++ ':' :: c))) =
      some ⟨decodeDigits a, decodeDigits b, decodeDigits c⟩ ∧
    Time.parse "1:90" = some ⟨0, 1, 90⟩ ∧
    Time.to_seconds ⟨0, 1, 90⟩ = 150 ∧
    Time.to_ffmpeg ⟨0, 1, 90⟩ = "00:01:90" := by
  have hws2 : ∀ ch ∈ a ++ ':' :: b, ch.isWhitespace = false := by
    intro ch hch
    simp only [List.mem_append, List.mem_cons] at hch
    rcases hch with hch | rfl | hch
    · exact all_isDigit_not_ws a ha2 ch hch
    · decide
    · exact all_isDigit_not_ws b hb3 ch hch
  have hws3 : ∀ ch ∈ a ++ ':' :: (b ++ ':' :: c), ch.isWhitespace = false := by
    intro ch hch
    simp only [List.mem_append, List.mem_cons] at hch
    rcases hch with hch | rfl | hch | rfl | hch
    · exact all_isDigit_not_ws a ha2 ch hch
    · decide
    · exact all_isDigit_not_ws b hb3 ch hch
    · decide
    · exact all_isDigit_not_ws c hc3 ch hch
  refine ⟨?_, ?_, by decide, by decide, by decide⟩
  · rw [Time.parse]
    rw [show (String.mk (a ++ ':' :: b)).data = a ++ ':' :: b from rfl]
    rw [trimChars_eq_self _ hws2,
      splitOnColon_append a b (all_isDigit_ne_colon a ha2),
      splitOnColon_no_colon b (all_isDigit_ne_colon b hb3)]
    exact if_pos ⟨ha1, ha2, ha3, hb1, hb2, hb3⟩
  · rw [Time.parse]
    rw [show (String.mk (a ++ ':' :: (b ++ ':' :: c))).data =
      a ++ ':' :: (b ++ ':' :: c) from rfl]
    rw [trimChars_eq_self _ hws3,
      splitOnColon_append a (b ++ ':' :: c) (all_isDigit_ne_colon a ha2),
      splitOnColon_append b c (all_isDigit_ne_colon b hb3),
      splitOnColon_no_colon c (all_isDigit_ne_colon c hc3)]
    exact if_pos ⟨ha1, ha2, ha3, hb1, hb2, hb3, hc1, hc2, hc3⟩

theorem time_parse_no_range_check_witness :
    Time.parse (String.mk (['1'] ++ ':' :: ['9', '0'])) =
      some ⟨0, decodeDigits ['1'], decodeDigits ['9', '0']⟩ ∧
    Time.parse (String.mk (['1'] ++ ':' :: (['9', '0'] ++ ':' :: ['7', '5']))) =
      some ⟨decodeDigits ['1'], decodeDigits ['9', '0'],
        decodeDigits ['7', '5']⟩ ∧
    Time.parse "1:90" = some ⟨0, 1, 90⟩ ∧
    Time.to_seconds ⟨0, 1, 90⟩ = 150 ∧
    Time.to_ffmpeg ⟨0, 1, 90⟩ = "00:01:90" :=
  time_parse_no_range_check ['1'] ['9', '0'] ['7', '5'] (by decide) (by decide)
    (by decide) (by decide) (by decide) (by decide) (by decide) (by decide)
    (by decide)

/-! ## Watermark size (src/model/types.rs, `WatermarkSize::parse`)

The `s.parse::<f64>()` probe in the middle branch is modelled by `parseF64`,
implementing Rust's float grammar for finite decimal literals
(`Sign? (Digits '.'? Digits? | '.' Digits) Exp?`); the special forms
`inf`/`infinity`/`nan` are not modelled (a NaN bare input would take the
pixel path with a saturating-to-0 cast in Rust, outside this claim's scope),
and the value is kept exact in `ℚ` rather than rounded to the nearest
`f64`. -/

/-- Optional leading sign: returns (is-negative, remainder). -/
def splitSign (l : List Char) : Bool × List Char :=
  match l with
  | [] => (false, [])
  | c :: r =>
    if c = '-' then (true, r)
    else if c = '+' then (false, r)
    else (false, c :: r)

/-- Exponent digits with optional sign (`Sign? Digits`). -/
def parseExpDigits (l : List Char) : Option ℤ :=
  if (splitSign l).2 ≠ [] ∧ (splitSign l).2.all Char.isDigit = true then
    some (if (splitSign l).1 then -(decodeDigits (splitSign l).2 : ℤ)
      else (decodeDigits (splitSign l).2 : ℤ))
  else none

/-- Exponent suffix: empty, or `e`/`E` followed by signed digits. -/
def parseExpPart (l : List Char) : Option ℤ :=
  match l with
  | [] => some 0
  | c :: r => if c = 'e' ∨ c = 'E' then parseExpDigits r else none

/-- Unsigned mantissa (`Digits '.'? Digits? | '.' Digits`): value and
remainder. -/
def parseMantissa (r1 : List Char) : Option (ℚ × List Char) :=
  match r1.dropWhile Char.isDigit with
  | c :: r3 =>
    if c = '.' then
      if r1.takeWhile Char.isDigit = [] ∧ r3.takeWhile Char.isDigit = [] then
        none
      else
        some ((decodeDigits (r1.takeWhile Char.isDigit) : ℚ) +
          (decodeDigits (r3.takeWhile Char.isDigit) : ℚ) /
            10 ^ (r3.takeWhile Char.isDigit).length,
          r3.dropWhile Char.isDigit)
    else if r1.takeWhile Char.isDigit = [] then none
    else some ((decodeDigits (r1.takeWhile Char.isDigit) : ℚ), c :: r3)
  | [] =>
    if r1.takeWhile Char.isDigit = [] then none
    else some ((decodeDigits (r1.takeWhile Char.isDigit) : ℚ), [])

/-- Rust `str::parse::<f64>` on finite decimal literals, exact over `ℚ`. -/
def parseF64 (l : List Char) : Option ℚ :=
  match parseMantissa (splitSign l).2 with
  | none => none
  | some (m, rest) =>
    match parseExpPart rest with
    | none => none
    | some e => some ((if (splitSign l).1 then -m else m) * (10 : ℚ) ^ e)

/-- Rust `f64 as u32`: truncate toward zero, saturating to `[0, 2^32-1]`. -/
def ratToU32 (q : ℚ) : ℕ :=
  if q ≤ 0 then 0 else min (Nat.floor q) (2 ^ 32 - 1)

/-- Rust `trim_end_matches('%')`: strip every trailing `%`. -/
def stripTrailingPercent (l : List Char) : List Char :=
  (l.reverse.dropWhile fun c => c = '%').reverse

/-- Watermark size values (types.rs:281-284). -/
inductive WatermarkSize where
  | Percentage (value : ℚ)
  | Pixels (width : ℕ) (height : Option ℕ)
deriving DecidableEq

/-- The pixel-dimension fallback `^\s*(\d+)(?:\s*x\s*(\d+))?\s*$`
(types.rs:309-321), on input that is already trimmed; the `parse::<u32>`
bounds are explicit. -/
def pixelDims (t : List Char) : Option WatermarkSize :=
  if t.takeWhile Char.isDigit = [] ∨
      ¬ decodeDigits (t.takeWhile Char.isDigit) < 2 ^ 32 then none
  else
    match (t.dropWhile Char.isDigit).dropWhile Char.isWhitespace with
    | [] => some (WatermarkSize.Pixels (decodeDigits (t.takeWhile Char.isDigit)) none)
    | c :: r3 =>
      if c = 'x' then
        if (r3.dropWhile Char.isWhitespace).takeWhile Char.isDigit ≠ [] ∧
            decodeDigits ((r3.dropWhile Char.isWhitespace).takeWhile Char.isDigit)
              < 2 ^ 32 ∧
            ((r3.dropWhile Char.isWhitespace).dropWhile
              Char.isDigit).dropWhile Char.isWhitespace = [] then
          some (WatermarkSize.Pixels (decodeDigits (t.takeWhile Char.isDigit))
            (some (decodeDigits
              ((r3.dropWhile Char.isWhitespace).takeWhile Char.isDigit))))
        else none
      else none

/-- Embedding of `WatermarkSize::parse` (types.rs:288-323): trim; a trailing
`%` selects the percent branch (strip the `%`s, parse, divide by 100, range
check); otherwise, if the whole string parses as a float, apply the
bare-number heuristic (`decimal >= 0.0 && decimal <= 1.0 && s.contains('.')`
gives a percentage, anything else a `u32`-cast pixel width); otherwise fall
back to the pixel-dimension regex. -/
def WatermarkSize.parse (s : String) : Option WatermarkSize :=
  if (trimChars s.data).getLast? = some '%' then
    match parseF64 (stripTrailingPercent (trimChars s.data)) with
    | none => none
    | some v =>
      if v / 100 < 0 ∨ 1 < v / 100 then none
      else some (WatermarkSize.Percentage (v / 100))
  else
    match parseF64 (trimChars s.data) with
    | some v =>
      if 0 ≤ v ∧ v ≤ 1 ∧ '.' ∈ trimChars s.data then
        some (WatermarkSize.Percentage v)
      else some (WatermarkSize.Pixels (ratToU32 v) none)
    | none => pixelDims (trimChars s.data)

theorem splitSign_cases (l : List Char) :
    (splitSign l).2 = l ∨
      ∃ c, (c = '-' ∨ c = '+') ∧ l = c :: (splitSign l).2 := by
  cases l with
  | nil => exact Or.inl rfl
  | cons c r =>
    by_cases h1 : c = '-'
    · subst h1
      exact Or.inr ⟨'-', Or.inl rfl, by simp [splitSign]⟩
    · by_cases h2 : c = '+'
      · subst h2
        exact Or.inr ⟨'+', Or.inr rfl, by simp [splitSign]⟩
      · left
        simp [splitSign, h1, h2]

theorem parseExpDigits_chars (l : List Char) (e : ℤ)
    (h : parseExpDigits l = some e) :
    ∀ c ∈ l, c.isDigit = true ∨ c = '-' ∨ c = '+' := by
  rw [parseExpDigits] at h
  by_cases hc : (splitSign l).2 ≠ [] ∧ (splitSign l).2.all Char.isDigit = true
  · intro c hcl
    rcases splitSign_cases l with hl | ⟨c0, hc0, hl⟩
    · rw [hl] at hc
      exact Or.inl (List.all_eq_true.mp hc.2 c hcl)
    · rw [hl] at hcl
      rcases List.mem_cons.mp hcl with rfl | hcl
      · rcases hc0 with rfl | rfl
        · exact Or.inr (Or.inl rfl)
        · exact Or.inr (Or.inr rfl)
      · exact Or.inl (List.all_eq_true.mp hc.2 c hcl)
  · rw [if_neg hc] at h
    exact absurd h (by simp)

theorem parseExpPart_chars (l : List Char) (e : ℤ)
    (h : parseExpPart l = some e) :
    ∀ c ∈ l, c.isDigit = true ∨ c = '-' ∨ c = '+' ∨ c = 'e' ∨ c = 'E' := by
  cases l with
  | nil => intro c hc; exact absurd hc (List.not_mem_nil c)
  | cons c0 r =>
    rw [parseExpPart] at h
    by_cases hc0 : c0 = 'e' ∨ c0 = 'E'
    · rw [if_pos hc0] at h
      intro c hc
      rcases List.mem_cons.mp hc with rfl | hc
      · rcases hc0 with rfl | rfl
        · exact Or.inr (Or.inr (Or.inr (Or.inl rfl)))
        · exact Or.inr (Or.inr (Or.inr (Or.inr rfl)))
      · rcases parseExpDigits_chars r e h c hc with hd | hd | hd
        · exact Or.inl hd
        · exact Or.inr (Or.inl hd)
        · exact Or.inr (Or.inr (Or.inl hd))
    · rw [if_neg hc0] at h
      exact absurd h (by simp)

theorem parseMantissa_decomp (r1 : List Char) (m : ℚ) (rest : List Char)
    (h : parseMantissa r1 = some (m, rest)) :
    ∃ pre, r1 = pre ++ rest ∧ ∀ c ∈ pre, c.isDigit = true ∨ c = '.' := by
  have hsplit := List.takeWhile_append_dropWhile (p := Char.isDigit) (l := r1)
  cases hd : r1.dropWhile Char.isDigit with
  | nil =>
    simp only [parseMantissa, hd] at h
    by_cases hip : r1.takeWhile Char.isDigit = []
    · rw [if_pos hip] at h
      exact absurd h (by simp)
    · rw [if_neg hip] at h
      simp only [Option.some.injEq, Prod.mk.injEq] at h
      obtain ⟨hm, hrest⟩ := h
      have h1 : r1.takeWhile Char.isDigit = r1 := by
        have h2 := hsplit
        rw [hd, List.append_nil] at h2
        exact h2
      refine ⟨r1.takeWhile Char.isDigit, ?_, fun c hc =>
        Or.inl (List.mem_takeWhile_imp hc)⟩
      rw [← hrest, List.append_nil, h1]
  | cons c0 r3 =>
    simp only [parseMantissa, hd] at h
    by_cases hc0 : c0 = '.'
    · rw [if_pos hc0] at h
      by_cases hboth : r1.takeWhile Char.isDigit = [] ∧
          r3.takeWhile Char.isDigit = []
      · rw [if_pos hboth] at h
        exact absurd h (by simp)
      · rw [if_neg hboth] at h
        simp only [Option.some.injEq, Prod.mk.injEq] at h
        obtain ⟨hm, hrest⟩ := h
        refine ⟨r1.takeWhile Char.isDigit ++ '.' :: r3.takeWhile Char.isDigit,
          ?_, ?_⟩
        · rw [← hrest]
          have h3 : ('.' : Char) :: r3.takeWhile Char.isDigit ++
              r3.dropWhile Char.isDigit = '.' :: r3 := by
            rw [List.cons_append, List.takeWhile_append_dropWhile]
          calc r1 = r1.takeWhile Char.isDigit ++ r1.dropWhile Char.isDigit :=
              hsplit.symm
          _ = r1.takeWhile Char.isDigit ++ ('.' :: r3) := by rw [hd, hc0]
          _ = r1.takeWhile Char.isDigit ++ ('.' :: r3.takeWhile Char.isDigit ++
              r3.dropWhile Char.isDigit) := by rw [h3]
          _ = (r1.takeWhile Char.isDigit ++ '.' :: r3.takeWhile Char.isDigit) ++
              r3.dropWhile Char.isDigit := by rw [List.append_assoc]
        · intro c hc
          rcases List.mem_append.mp hc with hc | hc
          · exact Or.inl (List.mem_takeWhile_imp hc)
          · rcases List.mem_cons.mp hc with rfl | hc
            · exact Or.inr rfl
            · exact Or.inl (List.mem_takeWhile_imp hc)
    · rw [if_neg hc0] at h
      by_cases hip : r1.takeWhile Char.isDigit = []
      · rw [if_pos hip] at h
        exact absurd h (by simp)
      · rw [if_neg hip] at h
        simp only [Option.some.injEq, Prod.mk.injEq] at h
        obtain ⟨hm, hrest⟩ := h
        refine ⟨r1.takeWhile Char.isDigit, ?_, fun c hc =>
          Or.inl (List.mem_takeWhile_imp hc)⟩
        rw [← hrest, ← hd, hsplit]

theorem parseF64_chars (l : List Char) (v : ℚ) (h : parseF64 l = some v) :
    ∀ c ∈ l, c.isDigit = true ∨ c = '+' ∨ c = '-' ∨ c = '.' ∨ c = 'e' ∨
      c = 'E' := by
  cases hm : parseMantissa (splitSign l).2 with
  | none =>
    rw [parseF64, hm] at h
    exact absurd h (by simp)
  | some p =>
    obtain ⟨m0, rest⟩ := p
    cases he : parseExpPart rest with
    | none =>
      simp [parseF64, hm, he] at h
    | some e =>
      obtain ⟨pre, hpre, hprechars⟩ := parseMantissa_decomp (splitSign l).2 m0
        rest hm
      have hrest : ∀ c ∈ (splitSign l).2,
          c.isDigit = true ∨ c = '+' ∨ c = '-' ∨ c = '.' ∨ c = 'e' ∨ c = 'E' := by
        intro c hc
        rw [hpre] at hc
        rcases List.mem_append.mp hc with hc | hc
        · rcases hprechars c hc with hd | hd
          · exact Or.inl hd
          · exact Or.inr (Or.inr (Or.inr (Or.inl hd)))
        · rcases parseExpPart_chars rest e he c hc with hd | hd | hd | hd | hd
          · exact Or.inl hd
          · exact Or.inr (Or.inr (Or.inl hd))
          · exact Or.inr (Or.inl hd)
          · exact Or.inr (Or.inr (Or.inr (Or.inr (Or.inl hd))))
          · exact Or.inr (Or.inr (Or.inr (Or.inr (Or.inr hd))))
      intro c hc
      rcases splitSign_cases l with hl | ⟨c0, hc0, hl⟩
      · exact hrest c (by rw [hl]; exact hc)
      · rw [hl] at hc
        rcases List.mem_cons.mp hc with rfl | hc
        · rcases hc0 with rfl | rfl
          · exact Or.inr (Or.inr (Or.inl rfl))
          · exact Or.inr (Or.inl rfl)
        · exact hrest c hc

theorem parseF64_no_trailing_percent (l : List Char) (v : ℚ)
    (h : parseF64 l = some v) : ¬ l.getLast? = some '%' := by
  intro hg
  have hmem : '%' ∈ l := List.mem_of_getLast?_eq_some hg
  rcases parseF64_chars l v h '%' hmem with hd | hd | hd | hd | hd | hd <;>
    exact absurd hd (by decide)

theorem parseF64_one_point_zero : parseF64 ['1', '.', '0'] = some 1 := by
  have hs : splitSign ['1', '.', '0'] = (false, ['1', '.', '0']) := by decide
  have hd : List.dropWhile Char.isDigit ['1', '.', '0'] = ['.', '0'] := by decide
  have ht1 : List.takeWhile Char.isDigit ['1', '.', '0'] = ['1'] := by decide
  have ht0 : List.takeWhile Char.isDigit ['0'] = ['0'] := by decide
  have hd0 : List.dropWhile Char.isDigit ['0'] = [] := by decide
  have he1 : decodeDigits ['1'] = 1 := by decide
  have he0 : decodeDigits ['0'] = 0 := by decide
  rw [parseF64, hs]
  simp only [parseMantissa, hd, ht1, ht0, hd0, he1, he0, parseExpPart]
  norm_num

theorem parseF64_two_zero_zero : parseF64 ['2', '0', '0'] = some 200 := by
  have hs : splitSign ['2', '0', '0'] = (false, ['2', '0', '0']) := by decide
  have hd : List.dropWhile Char.isDigit ['2', '0', '0'] = [] := by decide
  have ht : List.takeWhile Char.isDigit ['2', '0', '0'] = ['2', '0', '0'] := by
    decide
  have he : decodeDigits ['2', '0', '0'] = 200 := by decide
  rw [parseF64, hs]
  simp only [parseMantissa, hd, ht, he, parseExpPart,
    if_neg (show ¬(['2', '0', '0'] : List Char) = [] by decide)]
  norm_num

theorem watermark_parse_one_point_zero :
    WatermarkSize.parse "1.0" = some (WatermarkSize.Percentage 1) := by
  have ht : trimChars "1.0".data = ['1', '.', '0'] := by decide
  rw [WatermarkSize.parse, ht,
    if_neg (by decide : ¬(['1', '.', '0'].getLast? = some '%')),
    parseF64_one_point_zero]
  exact if_pos ⟨by norm_num, by norm_num, by decide⟩

theorem watermark_parse_two_hundred :
    WatermarkSize.parse "200" = some (WatermarkSize.Pixels 200 none) := by
  have ht : trimChars "200".data = ['2', '0', '0'] := by decide
  rw [WatermarkSize.parse, ht,
    if_neg (by decide : ¬(['2', '0', '0'].getLast? = some '%')),
    parseF64_two_zero_zero]
  have hcond : ¬((0:ℚ) ≤ 200 ∧ (200:ℚ) ≤ 1 ∧ '.' ∈ ['2', '0', '0']) := by
    intro hcon
    exact absurd hcon.2.1 (by norm_num)
  have hcast : ratToU32 200 = 200 := by
    rw [ratToU32, if_neg (by norm_num : ¬(200:ℚ) ≤ 0)]
    norm_num
  show (if (0:ℚ) ≤ 200 ∧ (200:ℚ) ≤ 1 ∧ '.' ∈ ['2', '0', '0'] then
      some (WatermarkSize.Percentage 200)
    else some (WatermarkSize.Pixels (ratToU32 200) none)) =
    some (WatermarkSize.Pixels 200 none)
  rw [if_neg hcond, hcast]

/-- C8: a watermark-size string that parses as a bare number is treated as a
percentage exactly when it contains a decimal point and its value lies in
`[0, 1]`, and as a pixel width (height unspecified) otherwise; in particular
`"1.0"` parses to `Percentage 1.0` and `"200"` to a 200-pixel width. -/
theorem watermark_bare_number_heuristic (s : String) (v : ℚ)
    (hv : parseF64 (trimChars s.data) = some v) :
    WatermarkSize.parse s =
      (if 0 ≤ v ∧ v ≤ 1 ∧ '.' ∈ trimChars s.data then
        some (WatermarkSize.Percentage v)
      else some (WatermarkSize.Pixels (ratToU32 v) none)) ∧
    WatermarkSize.parse "1.0" = some (WatermarkSize.Percentage 1) ∧
    WatermarkSize.parse "200" = some (WatermarkSize.Pixels 200 none) := by
  refine ⟨?_, watermark_parse_one_point_zero, watermark_parse_two_hundred⟩
  rw [WatermarkSize.parse,
    if_neg (parseF64_no_trailing_percent (trimChars s.data) v hv), hv]

theorem watermark_bare_number_heuristic_witness :
    WatermarkSize.parse "1.0" =
      (if 0 ≤ (1:ℚ) ∧ (1:ℚ) ≤ 1 ∧ '.' ∈ trimChars "1.0".data then
        some (WatermarkSize.Percentage 1)
      else some (WatermarkSize.Pixels (ratToU32 1) none)) ∧
    WatermarkSize.parse "1.0" = some (WatermarkSize.Percentage 1) ∧
    WatermarkSize.parse "200" = some (WatermarkSize.Pixels 200 none) :=
  watermark_bare_number_heuristic "1.0" 1
    (by rw [show trimChars "1.0".data = ['1', '.', '0'] from by decide]
        exact parseF64_one_point_zero)

/-! ## Target sizes (src/model/types.rs, `TargetSize::parse`)

Regex `(?i)^\s*(\d+(?:\.\d+)?)\s*(b|kb|k|mb|m|gb|g)\s*$`, the number group
read as a float (exact over `ℚ` here), binary 1024-based multipliers, and
`bytes = (num * mult).round() as u64`.  Sizes at or beyond `2^64` bytes,
where the `u64` cast would saturate and `f64` precision has already diverged,
are not modelled. -/

/-- Byte counts (types.rs:70-72); the `u64` field becomes `ℕ`. -/
structure TargetSize where
  bytes : ℕ
deriving DecidableEq

/-- Rust `f64::round` (half away from zero) on the nonnegative values
produced here. -/
def roundNonneg (q : ℚ) : ℕ := Nat.floor (q + 1/2)

/-- The 1024-based multiplier of a lowercased unit letter (types.rs:86-92). -/
def unitMult (c : Char) : ℚ :=
  if c = 'k' then 1024
  else if c = 'm' then 1024 * 1024
  else 1024 * 1024 * 1024

/-- The number group `(\d+(?:\.\d+)?)`: digits with an optional fraction.
A `.` not followed by a digit is left unconsumed by the regex group; since no
unit can then match the leftover `.`, returning `none` here is equivalent to
the regex failing as a whole. -/
def parseSizeNumber (l : List Char) : Option (ℚ × List Char) :=
  if l.takeWhile Char.isDigit = [] then none
  else
    match l.dropWhile Char.isDigit with
    | c :: r2 =>
      if c = '.' then
        if r2.takeWhile Char.isDigit = [] then none
        else
          some ((decodeDigits (l.takeWhile Char.isDigit) : ℚ) +
            (decodeDigits (r2.takeWhile Char.isDigit) : ℚ) /
              10 ^ (r2.takeWhile Char.isDigit).length,
            r2.dropWhile Char.isDigit)
      else some ((decodeDigits (l.takeWhile Char.isDigit) : ℚ), c :: r2)
    | [] => some ((decodeDigits (l.takeWhile Char.isDigit) : ℚ), [])

/-- The case-insensitive unit group `(b|kb|k|mb|m|gb|g)`; the regex
alternation tries `kb` before `k` (same for `mb`/`m`, `gb`/`g`), so a
`k`/`m`/`g` absorbs an immediately following `b`. -/
def parseSizeUnit (l : List Char) : Option (ℚ × List Char) :=
  match l with
  | [] => none
  | c :: r =>
    if c.toLower = 'b' then some (1, r)
    else if c.toLower = 'k' ∨ c.toLower = 'm' ∨ c.toLower = 'g' then
      match r with
      | c2 :: r2 =>
        if c2.toLower = 'b' then some (unitMult c.toLower, r2)
        else some (unitMult c.toLower, c2 :: r2)
      | [] => some (unitMult c.toLower, [])
    else none

/-- Embedding of `TargetSize::parse` (types.rs:76-97). -/
def TargetSize.parse (s : String) : Option TargetSize :=
  match parseSizeNumber (s.data.dropWhile Char.isWhitespace) with
  | none => none
  | some (q, r) =>
    match parseSizeUnit (r.dropWhile Char.isWhitespace) with
    | none => none
    | some (mult, r2) =>
      if r2.dropWhile Char.isWhitespace = [] then
        some ⟨roundNonneg (q * mult)⟩
      else none

theorem parseSizeNumber_none_frac (l : List Char)
    (hip : ¬ l.takeWhile Char.isDigit = []) (c : Char) (r2 : List Char)
    (hd : l.dropWhile Char.isDigit = c :: r2) (hc : ¬ c = '.') :
    parseSizeNumber l =
      some ((decodeDigits (l.takeWhile Char.isDigit) : ℚ), c :: r2) := by
  simp only [parseSizeNumber, if_neg hip, hd, if_neg hc]

theorem parseSizeNumber_frac (l : List Char)
    (hip : ¬ l.takeWhile Char.isDigit = []) (r2 : List Char)
    (hd : l.dropWhile Char.isDigit = '.' :: r2)
    (h2 : ¬ r2.takeWhile Char.isDigit = []) :
    parseSizeNumber l =
      some ((decodeDigits (l.takeWhile Char.isDigit) : ℚ) +
        (decodeDigits (r2.takeWhile Char.isDigit) : ℚ) /
          10 ^ (r2.takeWhile Char.isDigit).length,
        r2.dropWhile Char.isDigit) := by
  simp only [parseSizeNumber, if_neg hip, hd]
  rw [if_true, if_neg h2]

theorem parseSizeNumber_nonneg (l : List Char) (q : ℚ) (r : List Char)
    (h : parseSizeNumber l = some (q, r)) : 0 ≤ q := by
  by_cases hip : l.takeWhile Char.isDigit = []
  · rw [parseSizeNumber, if_pos hip] at h
    exact absurd h (by simp)
  · cases hd : l.dropWhile Char.isDigit with
    | nil =>
      simp only [parseSizeNumber, if_neg hip, hd, Option.some.injEq,
        Prod.mk.injEq] at h
      rw [← h.1]
      positivity
    | cons c r2 =>
      by_cases hc : c = '.'
      · subst hc
        by_cases h2 : r2.takeWhile Char.isDigit = []
        · simp only [parseSizeNumber, if_neg hip, hd] at h
          rw [if_true, if_pos h2] at h
          exact absurd h (by simp)
        · rw [parseSizeNumber_frac l hip r2 hd h2] at h
          simp only [Option.some.injEq, Prod.mk.injEq] at h
          rw [← h.1]
          positivity
      · rw [parseSizeNumber_none_frac l hip c r2 hd hc] at h
        simp only [Option.some.injEq, Prod.mk.injEq] at h
        rw [← h.1]
        positivity

theorem unitMult_cases (c : Char) :
    unitMult c = 1024 ∨ unitMult c = 1024 * 1024 ∨
      unitMult c = 1024 * 1024 * 1024 := by
  rw [unitMult]
  by_cases h1 : c = 'k'
  · rw [if_pos h1]
    exact Or.inl rfl
  · rw [if_neg h1]
    by_cases h2 : c = 'm'
    · rw [if_pos h2]
      exact Or.inr (Or.inl rfl)
    · rw [if_neg h2]
      exact Or.inr (Or.inr rfl)

theorem parseSizeUnit_mult (l : List Char) (mult : ℚ) (r : List Char)
    (h : parseSizeUnit l = some (mult, r)) :
    mult = 1 ∨ mult = 1024 ∨ mult = 1024 * 1024 ∨
      mult = 1024 * 1024 * 1024 := by
  cases l with
  | nil => exact absurd h (by simp [parseSizeUnit])
  | cons c r0 =>
    by_cases hb : c.toLower = 'b'
    · simp only [parseSizeUnit, if_pos hb, Option.some.injEq,
        Prod.mk.injEq] at h
      exact Or.inl h.1.symm
    · by_cases hk : c.toLower = 'k' ∨ c.toLower = 'm' ∨ c.toLower = 'g'
      · cases r0 with
        | nil =>
          simp only [parseSizeUnit, if_neg hb, if_pos hk, Option.some.injEq,
            Prod.mk.injEq] at h
          rcases unitMult_cases c.toLower with hm | hm | hm <;>
            rw [← h.1, hm] <;> norm_num
        | cons c2 r2 =>
          by_cases hb2 : c2.toLower = 'b'
          · simp only [parseSizeUnit, if_neg hb, if_pos hk, if_pos hb2,
              Option.some.injEq, Prod.mk.injEq] at h
            rcases unitMult_cases c.toLower with hm | hm | hm <;>
              rw [← h.1, hm] <;> norm_num
          · simp only [parseSizeUnit, if_neg hb, if_pos hk, if_neg hb2,
              Option.some.injEq, Prod.mk.injEq] at h
            rcases unitMult_cases c.toLower with hm | hm | hm <;>
              rw [← h.1, hm] <;> norm_num
      · simp only [parseSizeUnit, if_neg hb, if_neg hk] at h
        exact absurd h (by simp)

theorem parseSizeUnit_b (c : Char) (r : List Char) (hb : c.toLower = 'b') :
    parseSizeUnit (c :: r) = some (1, r) := by
  simp only [parseSizeUnit, if_pos hb]

theorem parseSizeUnit_kmg (c c2 : Char) (r2 : List Char)
    (hb : ¬ c.toLower = 'b')
    (hk : c.toLower = 'k' ∨ c.toLower = 'm' ∨ c.toLower = 'g')
    (hb2 : c2.toLower = 'b') :
    parseSizeUnit (c :: c2 :: r2) = some (unitMult c.toLower, r2) := by
  simp only [parseSizeUnit, if_neg hb, if_pos hk, if_pos hb2]

theorem parseSizeUnit_kmg_last (c : Char) (hb : ¬ c.toLower = 'b')
    (hk : c.toLower = 'k' ∨ c.toLower = 'm' ∨ c.toLower = 'g') :
    parseSizeUnit [c] = some (unitMult c.toLower, []) := by
  simp only [parseSizeUnit, if_neg hb, if_pos hk]

theorem targetsize_parse_ten_mb :
    TargetSize.parse "10mb" = some ⟨10 * 1024 * 1024⟩ := by
  have h1 : "10mb".data.dropWhile Char.isWhitespace = ['1', '0', 'm', 'b'] := by
    decide
  have hn : parseSizeNumber ['1', '0', 'm', 'b'] = some (10, ['m', 'b']) := by
    rw [parseSizeNumber_none_frac ['1', '0', 'm', 'b'] (by decide) 'm' ['b']
      (by decide) (by decide)]
    rw [show decodeDigits (List.takeWhile Char.isDigit ['1', '0', 'm', 'b']) = 10
      from by decide]
    norm_num
  have hu : parseSizeUnit (['m', 'b'] : List Char) =
      some (1024 * 1024, []) := by
    rw [parseSizeUnit_kmg 'm' 'b' [] (by decide) (by decide) (by decide),
      show ('m'.toLower) = 'm' from by decide, unitMult,
      if_neg (show ¬('m' = 'k') by decide), if_pos rfl]
  simp only [TargetSize.parse, h1, hn,
    show List.dropWhile Char.isWhitespace (['m', 'b'] : List Char) = ['m', 'b']
      from by decide, hu,
    show List.dropWhile Char.isWhitespace ([] : List Char) = [] from rfl,
    if_true]
  have hr : roundNonneg ((10 : ℚ) * (1024 * 1024)) = 10 * 1024 * 1024 := by
    rw [roundNonneg, Nat.floor_eq_iff (by norm_num)]
    norm_num
  rw [hr]

theorem targetsize_parse_eight_hundred_k :
    TargetSize.parse "800k" = some ⟨800 * 1024⟩ := by
  have h1 : "800k".data.dropWhile Char.isWhitespace = ['8', '0', '0', 'k'] := by
    decide
  have hn : parseSizeNumber ['8', '0', '0', 'k'] = some (800, ['k']) := by
    rw [parseSizeNumber_none_frac ['8', '0', '0', 'k'] (by decide) 'k' []
      (by decide) (by decide)]
    rw [show decodeDigits (List.takeWhile Char.isDigit ['8', '0', '0', 'k']) =
      800 from by decide]
    norm_num
  have hu : parseSizeUnit (['k'] : List Char) = some (1024, []) := by
    rw [parseSizeUnit_kmg_last 'k' (by decide) (by decide),
      show ('k'.toLower) = 'k' from by decide, unitMult, if_pos rfl]
  simp only [TargetSize.parse, h1, hn,
    show List.dropWhile Char.isWhitespace (['k'] : List Char) = ['k']
      from by decide, hu,
    show List.dropWhile Char.isWhitespace ([] : List Char) = [] from rfl,
    if_true]
  have hr : roundNonneg ((800 : ℚ) * 1024) = 800 * 1024 := by
    rw [roundNonneg, Nat.floor_eq_iff (by norm_num)]
    norm_num
  rw [hr]

theorem targetsize_parse_gb_float :
    TargetSize.parse "1.5Gb" = some ⟨1610612736⟩ := by
  have h1 : "1.5Gb".data.dropWhile Char.isWhitespace =
    ['1', '.', '5', 'G', 'b'] := by decide
  have hn : parseSizeNumber ['1', '.', '5', 'G', 'b'] =
      some (1 + 5 / 10, ['G', 'b']) := by
    rw [parseSizeNumber_frac ['1', '.', '5', 'G', 'b'] (by decide)
      ['5', 'G', 'b'] (by decide) (by decide)]
    rw [show decodeDigits (List.takeWhile Char.isDigit ['1', '.', '5', 'G', 'b'])
        = 1 from by decide,
      show List.takeWhile Char.isDigit ['5', 'G', 'b'] = ['5'] from by decide,
      show List.dropWhile Char.isDigit ['5', 'G', 'b'] = ['G', 'b']
        from by decide,
      show decodeDigits ['5'] = 5 from by decide]
    norm_num
  have hu : parseSizeUnit (['G', 'b'] : List Char) =
      some (1024 * 1024 * 1024, []) := by
    rw [parseSizeUnit_kmg 'G' 'b' [] (by decide) (by decide) (by decide),
      show ('G'.toLower) = 'g' from by decide, unitMult,
      if_neg (show ¬('g' = 'k') by decide),
      if_neg (show ¬('g' = 'm') by decide)]
  simp only [TargetSize.parse, h1, hn,
    show List.dropWhile Char.isWhitespace (['G', 'b'] : List Char) = ['G', 'b']
      from by decide, hu,
    show List.dropWhile Char.isWhitespace ([] : List Char) = [] from rfl,
    if_true]
  have hr : roundNonneg ((1 + 5 / 10 : ℚ) * (1024 * 1024 * 1024)) =
      1610612736 := by
    rw [roundNonneg, Nat.floor_eq_iff (by norm_num)]
    norm_num
  rw [hr]

/-- C9: `TargetSize::parse` accepts a float followed by a case-insensitive
unit with binary 1024-based multipliers: every accepted input decomposes into
a (nonnegative) number and a unit whose multiplier is one of
`1, 1024, 1024², 1024³`, and the byte count is the number times the
multiplier rounded to the nearest integer; in particular
`parse "10mb" = 10·1024·1024` bytes, `parse "800k" = 800·1024` bytes, and
(float, mixed case) `parse "1.5Gb" = 1610612736` bytes. -/
theorem targetsize_parse_spec (s : String) (t : TargetSize)
    (h : TargetSize.parse s = some t) :
    (∃ (q mult : ℚ) (r r2 : List Char),
      parseSizeNumber (s.data.dropWhile Char.isWhitespace) = some (q, r) ∧
      parseSizeUnit (r.dropWhile Char.isWhitespace) = some (mult, r2) ∧
      r2.dropWhile Char.isWhitespace = [] ∧
      0 ≤ q ∧
      (mult = 1 ∨ mult = 1024 ∨ mult = 1024 * 1024 ∨
        mult = 1024 * 1024 * 1024) ∧
      t.bytes = roundNonneg (q * mult)) ∧
    TargetSize.parse "10mb" = some ⟨10 * 1024 * 1024⟩ ∧
    TargetSize.parse "800k" = some ⟨800 * 1024⟩ ∧
    TargetSize.parse "1.5Gb" = some ⟨1610612736⟩ := by
  refine ⟨?_, targetsize_parse_ten_mb, targetsize_parse_eight_hundred_k,
    targetsize_parse_gb_float⟩
  cases hn : parseSizeNumber (s.data.dropWhile Char.isWhitespace) with
  | none =>
    rw [TargetSize.parse, hn] at h
    exact absurd h (by simp)
  | some p =>
    obtain ⟨q, r⟩ := p
    cases hu : parseSizeUnit (r.dropWhile Char.isWhitespace) with
    | none =>
      simp [TargetSize.parse, hn, hu] at h
    | some u =>
      obtain ⟨mult, r2⟩ := u
      by_cases hr2 : r2.dropWhile Char.isWhitespace = []
      · simp only [TargetSize.parse, hn, hu, if_pos hr2,
          Option.some.injEq] at h
        refine ⟨q, mult, r, r2, rfl, hu, hr2,
          parseSizeNumber_nonneg _ q r hn, parseSizeUnit_mult _ mult r2 hu, ?_⟩
        rw [← h]
      · simp [TargetSize.parse, hn, hu, hr2] at h

theorem targetsize_parse_spec_witness :
    (∃ (q mult : ℚ) (r r2 : List Char),
      parseSizeNumber ("10mb".data.dropWhile Char.isWhitespace) =
        some (q, r) ∧
      parseSizeUnit (r.dropWhile Char.isWhitespace) = some (mult, r2) ∧
      r2.dropWhile Char.isWhitespace = [] ∧
      0 ≤ q ∧
      (mult = 1 ∨ mult = 1024 ∨ mult = 1024 * 1024 ∨
        mult = 1024 * 1024 * 1024) ∧
      (TargetSize.mk (10 * 1024 * 1024)).bytes = roundNonneg (q * mult)) ∧
    TargetSize.parse "10mb" = some ⟨10 * 1024 * 1024⟩ ∧
    TargetSize.parse "800k" = some ⟨800 * 1024⟩ ∧
    TargetSize.parse "1.5Gb" = some ⟨1610612736⟩ :=
  targetsize_parse_spec "10mb" ⟨10 * 1024 * 1024⟩ targetsize_parse_ten_mb

end FFHuman
